import Mathlib

/-!
Verification of the `VersionLens` manifest-annotation core of
`src/interactive/documentation.ts` (the Project.toml version-lens feature).

Document text is modelled as `List Char`.  vscode `Position` values are
modelled as character offsets into the document: `TextDocument.positionAt`
is an order isomorphism from (clamped) offsets to `(line, character)`
positions, so comparisons between positions computed by `positionAt`
coincide with comparisons between the underlying offsets.

JavaScript `RegExp` patterns appearing in the source are embedded as
explicit scanning functions over `List Char` that implement the standard
leftmost-match / greedy-with-backtracking semantics of each concrete
pattern used by the code.  The keys and values interpolated into those
patterns are treated as literal character sequences (all keys and values
exercised here contain no regex metacharacters).
-/

set_option maxRecDepth 100000

/-- Half-open region of a document: the characters at offsets `[a, b)` of
`text` (JavaScript `text.slice(a, b)` for `0 ≤ a ≤ b`). -/
def sliceText (text : List Char) (a b : Nat) : List Char :=
  (text.drop a).take (b - a)

/-- The single-quote character, written via its code point. -/
def squote : Char := Char.ofNat 39

/-- Does `c` match the `("|')` quote alternative of the field regexes? -/
def isQuote (c : Char) : Bool := c = '"' || c = squote

/-- Length of the leading run of spaces, i.e. what the greedy `[ ]*` of the
field regexes consumes (a space is never `=` nor a quote, so greedy
matching never backtracks into this run). -/
def spacesCount (cs : List Char) : Nat := (cs.takeWhile (fun c => c = ' ')).length

/-- One character of the key/value interpolated into the source's
`RegExp(`...${key}...${value}...`)`, read with its regex meaning: `.` is the
any-character metacharacter and matches everything except a line
terminator; every other character matches itself.  The embedding covers
interpolated strings whose characters are regex-literal or `.` — `.` being
the one metacharacter that occurs in Project.toml keys and values (dotted
`compat` version strings); quantifiers, anchors, classes, escapes and the
other metacharacters are outside the modelled fragment, which the
`regexAtomChars` / `regexLiteralChars` hypotheses of the theorems make
explicit. -/
def atomMatches (p c : Char) : Bool :=
  if p = '.' then
    !(c = '\n' || c = '\r' || c = Char.ofNat 0x2028 || c = Char.ofNat 0x2029)
  else p = c

/-- Match the interpolated character sequence `p` atom-by-atom against a
prefix of `cs` (every atom has width one). -/
def atomsPrefix : List Char → List Char → Bool
  | [], _ => true
  | _ :: _, [] => false
  | p :: ps, c :: cs => atomMatches p c && atomsPrefix ps cs

/-- Does `s` consist of exactly one matching character per atom of `p`? -/
def atomsMatch : List Char → List Char → Bool
  | [], [] => true
  | p :: ps, c :: cs => atomMatches p c && atomsMatch ps cs
  | _, _ => false

/-- Regex metacharacters other than `.` (braces written via code points). -/
def isRegexMeta (c : Char) : Bool :=
  c = '\\' || c = '^' || c = '$' || c = '*' || c = '+' || c = '?' || c = '(' ||
  c = ')' || c = '[' || c = ']' || c = Char.ofNat 123 || c = Char.ofNat 125 || c = '|'

/-- The interpolated string stays inside the modelled regex fragment: every
character is regex-literal or the `.` atom. -/
def regexAtomChars (p : List Char) : Bool := p.all (fun c => !isRegexMeta c)

/-- No character of `p` is the `.` atom. -/
def noDot (p : List Char) : Bool := p.all (fun c => !(c = '.'))

/-- Every character of the interpolated string is regex-literal: the
pattern then matches only its exact rendering. -/
def regexLiteralChars (p : List Char) : Bool :=
  p.all (fun c => !isRegexMeta c && !(c = '.'))

/-- Attempt to match the regex ``key[ ]*=[ ]*("|')value("|')`` (built in
`getFieldRange` and in the entry loop of `getSectionFieldsRanges`) at the
start of `cs`; returns the length of the match.  The interpolated `key` and
`value` are matched atom-by-atom (see `atomMatches`), so a `.` inside a
value keeps its any-character meaning, as in the source's `RegExp`. -/
def tryFieldAt (key value : List Char) (cs : List Char) : Option Nat :=
  if atomsPrefix key cs then
    match (cs.drop key.length).drop (spacesCount (cs.drop key.length)) with
    | '=' :: cs2 =>
      (match cs2.drop (spacesCount cs2) with
       | q1 :: cs3 =>
         if isQuote q1 && atomsPrefix value cs3 then
           (match cs3.drop value.length with
            | q2 :: _ =>
              if isQuote q2 then
                some (key.length + spacesCount (cs.drop key.length) + 1 +
                      spacesCount cs2 + 1 + value.length + 1)
              else none
            | [] => none)
         else none
       | [] => none)
    | _ => none
  else none

/-- Leftmost match: `String.prototype.match` with a non-global regex returns
the match at the smallest starting offset.  `f` is the fixed-position
matcher of the pattern; the result is `(index, length)`. -/
def findFirst (f : List Char → Option Nat) : List Char → Option (Nat × Nat)
  | [] => (f []).map fun l => (0, l)
  | c :: rest =>
    match f (c :: rest) with
    | some l => some (0, l)
    | none => (findFirst f rest).map fun p => (p.1 + 1, p.2)

/-- Lengths (in preference order `\r\n`, `\r`, `\n`) at which the
`NEWLINE_DELIMITER` alternation `(\r\n|\r|\n)` matches at the head of
`cs`. -/
def nlToks (cs : List Char) : List Nat :=
  (if cs.take 2 = ['\r', '\n'] then [2] else []) ++
  (if cs.take 1 = ['\r'] then [1] else []) ++
  (if cs.take 1 = ['\n'] then [1] else [])

/-- Continue the terminator tail after a newline token of length `l`: match
the `(\[|NEWLINE_DELIMITER)` alternative. -/
def suffixTail (cs : List Char) (l : Nat) : Option Nat :=
  if (cs.drop l).take 1 = ['['] then some (l + 1)
  else (nlToks (cs.drop l)).head?.map fun l2 => l + l2

/-- Attempt to match the tail ``NEWLINE_DELIMITER(\[|NEWLINE_DELIMITER)`` of
the `getSectionFieldsRanges` regex at the head of `cs`, trying the newline
alternatives in preference order with backtracking; returns the length of
the match. -/
def suffixAt (cs : List Char) : Option Nat :=
  match nlToks cs with
  | [] => none
  | [l] => suffixTail cs l
  | l :: l2 :: _ => (suffixTail cs l).orElse fun _ => suffixTail cs l2

/-- Position (and matched length) of the last occurrence of the
terminator tail inside `cs`.  The greedy `(NEWLINE_DELIMITER|.)*` of the
section regex matches any characters, so backtracking resolves it to the
largest position at which the terminator still matches. -/
def largestSuffix : List Char → Option (Nat × Nat)
  | [] => (suffixAt []).map fun sl => (0, sl)
  | c :: rest =>
    match largestSuffix rest with
    | some p => some (p.1 + 1, p.2)
    | none => (suffixAt (c :: rest)).map fun sl => (0, sl)

/-- The literal header token `[sectionName]`. -/
def headerChars (sectionName : List Char) : List Char :=
  '[' :: (sectionName ++ [']'])

/-- Attempt to match the whole `getSectionFieldsRanges` regex
``\[sectionName\](NEWLINE_DELIMITER|.)*NEWLINE_DELIMITER(\[|NEWLINE_DELIMITER)``
at the start of `cs`; returns the length of the (greedy) match. -/
def sectionBodyAt (sectionName : List Char) (cs : List Char) : Option Nat :=
  if (headerChars sectionName).isPrefixOf cs then
    (largestSuffix (cs.drop (headerChars sectionName).length)).map fun p =>
      (headerChars sectionName).length + p.1 + p.2
  else none

/-- Leftmost match of the section-fields regex over the whole document:
`(index, length)` of the text `getSectionFieldsRanges` binds to
`matchedSectionField`. -/
def matchSectionFields (sectionName : List Char) (text : List Char) : Option (Nat × Nat) :=
  findFirst (sectionBodyAt sectionName) text

/-- Model of `TextDocument.positionAt` for non-negative offsets: vscode
clamps the offset into the document and the resulting `(line, character)`
position corresponds to the clamped offset. -/
def positionAtNat (text : List Char) (n : Nat) : Nat := min n text.length

/-- Model of `TextDocument.positionAt` on a possibly negative offset
(`positionAt(-1)` in `getFieldRange`): vscode clamps negative offsets
to 0. -/
def positionAtI (text : List Char) (i : Int) : Nat :=
  (min (max i 0) (text.length : Int)).toNat

/-- Model of `vscode.Range` between two positions (offsets). -/
structure Range where
  start : Nat
  stop : Nat
deriving DecidableEq, Repr

/-- Model of the `vscode.Range` constructor: if `start` is not before or
equal to `end`, the values are swapped. -/
def mkRange (a b : Nat) : Range :=
  if a ≤ b then ⟨a, b⟩ else ⟨b, a⟩

/-- Model of `vscode.Range.contains` on a position: it returns false only
when the position is before `start` or after `end`, hence containment is
inclusive of both endpoints. -/
def containsPos (r : Range) (p : Nat) : Bool :=
  decide (r.start ≤ p) && decide (p ≤ r.stop)

/-- Errors surfaced by the embedded JavaScript code: `typeError` models the
`TypeError` thrown by indexing `null` with `[0]`, `parseError` models the
exception thrown by `toml.parse` on malformed input. -/
inductive JsError
  | typeError
  | parseError
deriving DecidableEq, Repr

/-- A TOML table, in document order (`Object.keys` of the parsed object
enumerates string keys in insertion order). -/
abbrev TomlDependency := List (List Char × List Char)

/-- The `ProjectToml` shape destructured by the code.  Absent fields are
`none` (JavaScript `undefined`); a section header with no entries yields an
empty table (`some []`, truthy in JavaScript). -/
structure ProjectToml where
  name : Option (List Char)
  uuid : Option (List Char)
  version : Option (List Char)
  deps : Option TomlDependency
  extras : Option TomlDependency
  compat : Option TomlDependency
  targets : Option TomlDependency
deriving DecidableEq, Repr

/-- The characters of a string literal. -/
def strL (s : String) : List Char := s.data

/-- TOML inline whitespace. -/
def isTomlWs (c : Char) : Bool := c = ' ' || c = '\t'

/-- Drop leading inline whitespace. -/
def trimStart (cs : List Char) : List Char := cs.dropWhile isTomlWs

/-- Drop trailing inline whitespace. -/
def trimEnd (cs : List Char) : List Char := (cs.reverse.dropWhile isTomlWs).reverse

/-- Split a document into lines at `\n` (an empty document is one empty
line). -/
def splitOnNl : List Char → List (List Char)
  | [] => [[]]
  | '\n' :: rest => [] :: splitOnNl rest
  | c :: rest =>
    match splitOnNl rest with
    | l :: ls => (c :: l) :: ls
    | [] => [[c]]

/-- Strip a trailing `\r` left by CRLF line endings. -/
def stripCr (l : List Char) : List Char :=
  if l.getLast? = some '\r' then l.dropLast else l

/-- A TOML basic-string escape (the subset used by the manifests considered
here). -/
def escChar (e : Char) : Option Char :=
  if e = '"' then some '"'
  else if e = '\\' then some '\\'
  else if e = 't' then some '\t'
  else if e = 'n' then some '\n'
  else if e = 'r' then some '\r'
  else none

/-- Scan the remainder of a double-quoted TOML basic string (after the
opening quote), processing escapes; returns the decoded value and the rest
of the line after the closing quote. -/
def scanBasic : List Char → Option (List Char × List Char)
  | [] => none
  | '"' :: rest => some ([], rest)
  | '\\' :: e :: rest2 =>
    (escChar e).bind fun ec => (scanBasic rest2).map fun p => (ec :: p.1, p.2)
  | '\\' :: [] => none
  | c :: rest => (scanBasic rest).map fun p => (c :: p.1, p.2)

/-- Scan the remainder of a single-quoted TOML literal string (no
escapes). -/
def scanLiteral : List Char → Option (List Char × List Char)
  | [] => none
  | c :: rest =>
    if c = squote then some ([], rest)
    else (scanLiteral rest).map fun p => (c :: p.1, p.2)

/-- May the rest of a line follow a value: only whitespace or a comment. -/
def restOk (cs : List Char) : Bool :=
  match trimStart cs with
  | [] => true
  | '#' :: _ => true
  | _ => false

/-- Parse a single-line TOML string value (basic or literal). -/
def parseStringValue (cs : List Char) : Option (List Char) :=
  match cs with
  | c :: rest =>
    if c = '"' then (scanBasic rest).bind fun p => if restOk p.2 then some p.1 else none
    else if c = squote then (scanLiteral rest).bind fun p => if restOk p.2 then some p.1 else none
    else none
  | [] => none

/-- Characters allowed in a TOML bare key. -/
def isBareKeyChar (c : Char) : Bool := c.isAlphanum || c = '_' || c = '-'

/-- Classification of one manifest line. -/
inductive TomlLine
  | blank
  | header (sectionName : List Char)
  | pair (key value : List Char)
  | bad
deriving DecidableEq, Repr

/-- Classify one line of the manifest (the single-line key/value fragment of
TOML handled by this model; anything else is `bad`). -/
def parseTomlLine (line : List Char) : TomlLine :=
  match trimStart (trimEnd line) with
  | [] => .blank
  | '#' :: _ => .blank
  | '[' :: rest =>
    let nm := rest.takeWhile isBareKeyChar
    (match rest.drop nm.length with
     | ']' :: tail => if nm ≠ [] ∧ trimStart tail = [] then .header nm else .bad
     | _ => .bad)
  | t =>
    let k := t.takeWhile isBareKeyChar
    if k = [] then .bad
    else
      match trimStart (t.drop k.length) with
      | '=' :: tail =>
        (match parseStringValue (trimStart tail) with
         | some v => .pair k v
         | none => .bad)
      | _ => .bad

/-- Parser state: the section currently being filled (`none` while at top
level) and the project accumulated so far. -/
structure ParseState where
  cur : Option (List Char)
  proj : ProjectToml
deriving Repr

/-- The empty project. -/
def emptyProject : ProjectToml := ⟨none, none, none, none, none, none, none⟩

/-- Append an entry to a (possibly absent) table; duplicate keys are a parse
error, as in `@iarna/toml`. -/
def addSectionEntry (t : Option TomlDependency) (k v : List Char) :
    Option (Option TomlDependency) :=
  let tb := t.getD []
  if tb.any (fun kv => kv.1 = k) then none else some (some (tb ++ [(k, v)]))

/-- Enter a section header; a known section becomes an (initially empty)
table, and a duplicate known header is a parse error. -/
def applyHeader (st : ParseState) (nm : List Char) : Option ParseState :=
  let p := st.proj
  if nm = strL "deps" then
    if p.deps.isSome then none else some ⟨some nm, { p with deps := some [] }⟩
  else if nm = strL "extras" then
    if p.extras.isSome then none else some ⟨some nm, { p with extras := some [] }⟩
  else if nm = strL "compat" then
    if p.compat.isSome then none else some ⟨some nm, { p with compat := some [] }⟩
  else if nm = strL "targets" then
    if p.targets.isSome then none else some ⟨some nm, { p with targets := some [] }⟩
  else some ⟨some nm, p⟩

/-- Record a key/value pair in the current context.  Top-level keys other
than `name`/`uuid`/`version` are accepted and dropped (they are not part of
the destructured `ProjectToml` shape); pairs in unknown sections likewise. -/
def applyPair (st : ParseState) (k v : List Char) : Option ParseState :=
  match st.cur with
  | none =>
    let p := st.proj
    if k = strL "name" then
      if p.name.isSome then none else some ⟨none, { p with name := some v }⟩
    else if k = strL "uuid" then
      if p.uuid.isSome then none else some ⟨none, { p with uuid := some v }⟩
    else if k = strL "version" then
      if p.version.isSome then none else some ⟨none, { p with version := some v }⟩
    else some st
  | some nm =>
    let p := st.proj
    if nm = strL "deps" then
      (addSectionEntry p.deps k v).map fun t => ⟨st.cur, { p with deps := t }⟩
    else if nm = strL "extras" then
      (addSectionEntry p.extras k v).map fun t => ⟨st.cur, { p with extras := t }⟩
    else if nm = strL "compat" then
      (addSectionEntry p.compat k v).map fun t => ⟨st.cur, { p with compat := t }⟩
    else if nm = strL "targets" then
      (addSectionEntry p.targets k v).map fun t => ⟨st.cur, { p with targets := t }⟩
    else some st

/-- Run the line parser over the manifest. -/
def parseLines : List (List Char) → ParseState → Option ParseState
  | [], st => some st
  | l :: rest, st =>
    match parseTomlLine l with
    | .blank => parseLines rest st
    | .bad => none
    | .header nm => (applyHeader st nm).bind (parseLines rest)
    | .pair k v => (applyPair st k v).bind (parseLines rest)

/-- Model of `toml.parse` (from `@iarna/toml`) on the single-line key/value
fragment of TOML used by Project.toml manifests: strings with the common
escapes, bare keys, `[section]` headers, comments and blank lines.  Inputs
outside this fragment are a parse error in the model. -/
def tomlParse (text : List Char) : Except JsError ProjectToml :=
  match parseLines ((splitOnNl text).map stripCr) ⟨none, emptyProject⟩ with
  | some st => .ok st.proj
  | none => .error .parseError

/-- Model of `getProjectTomlFields`: parse the document snapshot. -/
def getProjectTomlFields (text : List Char) : Except JsError ProjectToml :=
  tomlParse text

/-- JavaScript `\s` on the ASCII range (all strings handled here are
ASCII). -/
def isJsWs (c : Char) : Bool :=
  c = ' ' || c = '\t' || c = '\n' || c = '\r' || c = '\x0b' || c = '\x0c'

/-- Length of `m1.replace(/\t/g, '    ')` in the `dedent` helper: each tab
counts as four characters. -/
def expandTabsLen (cs : List Char) : Nat :=
  cs.foldl (fun n c => n + (if c = '\t' then 4 else 1)) 0

/-- Scanner for the `str.replace(/\n(\s+)/g, ...)` pass of the `dedent`
helper in the `Tooltips` namespace: at each newline followed by whitespace,
the first such run fixes the indent size, and every run is cut by
`m1.slice(Math.min(m1.length, size))`.  The first argument is structural
fuel (one unit per character consumed, so `cs.length` suffices). -/
def dedentScanF : Nat → Int → List Char → List Char
  | 0, _, _ => []
  | fuel + 1, sz, cs =>
    match cs with
    | [] => []
    | c :: rest =>
      if c = '\n' && (match rest with | w :: _ => isJsWs w | [] => false) then
        let m1 := rest.takeWhile isJsWs
        let rest2 := rest.drop m1.length
        let sz2 : Int := if sz < 0 then (expandTabsLen m1 : Int) else sz
        '\n' :: (m1.drop (min m1.length sz2.toNat) ++ dedentScanF fuel sz2 rest2)
      else c :: dedentScanF fuel sz rest

/-- Run the dedent scanner with enough fuel for the whole string. -/
def dedentScan (sz : Int) (cs : List Char) : List Char :=
  dedentScanF cs.length sz cs

/-- Model of the `dedent` template helper of the `Tooltips` namespace on an
already-interpolated string. -/
def dedent (s : String) : String := ⟨dedentScan (-1) s.data⟩

/-- The top-level field names the hover provider knows
(`type ProjectTomlKey = 'name' | 'version' | 'uuid'`). -/
inductive ProjectTomlKey
  | name
  | uuid
  | version
deriving DecidableEq, Repr

/-- The section names
(`type ProjectTomlSection = 'deps' | 'extras' | 'compat' | 'targets'`). -/
inductive ProjectTomlSection
  | deps
  | extras
  | compat
  | targets
deriving DecidableEq, Repr

/-- The characters of a `ProjectTomlKey` literal. -/
def keyChars : ProjectTomlKey → List Char
  | .name => strL "name"
  | .uuid => strL "uuid"
  | .version => strL "version"

/-- The characters of a `ProjectTomlSection` literal. -/
def sectionChars : ProjectTomlSection → List Char
  | .deps => strL "deps"
  | .extras => strL "extras"
  | .compat => strL "compat"
  | .targets => strL "targets"

/-- `Tooltips.name`. -/
def Tooltips.name : String :=
  dedent ("\n    The name of the package/project.\n    The `name` can contain word characters `[a-zA-Z0-9_]`, but can not start with a number.\n    For packages it is recommended to follow [the package naming guidelines](http://pkgdocs.julialang.org/v1/creating-packages/#Package-naming-guidelines).\n    \nThe `name` field is mandatory for packages. See [Pkg docs](http://pkgdocs.julialang.org/v1/toml-files/#The-name-field).\n    ")

/-- `Tooltips.uuid`. -/
def Tooltips.uuid : String :=
  dedent ("\n    A string with a [universally unique identifier](https://en.wikipedia.org/wiki/Universally_unique_identifier) for the package/project.\n    \nThe `uuid` field is mandatory for packages. See [Pkg docs](http://pkgdocs.julialang.org/v1/toml-files/#The-uuid-field).\n    ")

/-- `Tooltips.version`. -/
def Tooltips.version : String :=
  dedent ("\n    A string with the version number for the package/project.\n    Julia uses [Semantic Versioning (SemVer)](https://semver.org/).\n    See [Pkg docs](http://pkgdocs.julialang.org/v1/toml-files/#The-version-field).\n    \n**Note that Pkg.jl deviates from the SemVer specification when it comes to versions pre-1.0.0.\n    See the section on [pre-1.0 behavior](http://pkgdocs.julialang.org/v1/compatibility/#compat-pre-1.0) for more details.**\n    ")

/-- The tooltip `Tooltips[key]` selected by `fieldHover`. -/
def Tooltips.fieldTooltip : ProjectTomlKey → String
  | .name => Tooltips.name
  | .uuid => Tooltips.uuid
  | .version => Tooltips.version

/-- `Tooltips.sectionsHeaders[sectionName]`. -/
def Tooltips.sectionsHeaders : ProjectTomlSection → String
  | .deps =>
    dedent ("\n        All dependencies of the package/project.\n        Each dependency is listed as a name-uuid pair.\n        Typically it is not needed to manually add entries to the `[deps]` section; this is instead handled by `Pkg` operations such as `add`.\n        See [Pkg docs](http://pkgdocs.julialang.org/v1/toml-files/#The-[deps]-section).\n        ")
  | .compat =>
    dedent ("\n        Compatibility constraints for the dependencies listed under `[deps]`.\n        See [Pkg docs](http://pkgdocs.julialang.org/v1/compatibility/#Compatibility).\n        ")
  | .extras =>
    dedent ("\n        Test-specific dependencies in Julia `1.0` and `1.1`.\n        See [Pkg docs](http://pkgdocs.julialang.org/v1/creating-packages/#Test-specific-dependencies-in-Julia-1.0-and-1.1).\n        ")
  | .targets =>
    dedent ("\n        Test-specific dependencies in Julia `1.0` and `1.1`.\n        See [Pkg docs](http://pkgdocs.julialang.org/v1/creating-packages/#Test-specific-dependencies-in-Julia-1.0-and-1.1).\n        ")

/-- `Tooltips.queryRegistriesHint` (a plain `MarkdownString`, no
dedenting). -/
def Tooltips.queryRegistriesHint : String :=
  "To get packages information, click on the `$(versions)` icon in the editor title bar."

/-- `Tooltips.DependencyHover`: the markdown rendered for a dependency once
live metadata is available; the interpolated values are embedded in the
template before the `dedent` pass. -/
def Tooltips.DependencyHover (name latestVersion url registry : String) : String :=
  dedent ("\n        - " ++ name ++ " in the `" ++ registry ++ "` registry.\n        - The latest version is `" ++ latestVersion ++ "`.\n        - More on [the package Homepage](" ++ url ++ ").\n        ")

/-- The method name of `requestTypeLens`
(`new rpc.RequestType(...)('lens/pkgVersions')`). -/
def requestTypeLens : String := "lens/pkgVersions"

/-- The parameter object of a `lens/pkgVersions` request:
`{ name: depName, uuid: dependency[depName] }`. -/
structure PkgVersionsParams where
  name : List Char
  uuid : List Char
deriving DecidableEq, Repr

/-- The response object of a `lens/pkgVersions` request:
`{ latest_version, url, registry }`. -/
structure PkgVersionsResponse where
  latest_version : String
  url : String
  registry : String
deriving DecidableEq, Repr

/-- Model of a `vscode.Hover`: the markdown contents and the range it
applies to. -/
structure Hover where
  contents : String
  range : Range
deriving DecidableEq, Repr

/-- Map a JavaScript `Array.prototype.map` whose callback can throw: the
first throwing element aborts the whole call. -/
def mapExcept (f : α → Except JsError β) : List α → Except JsError (List β)
  | [] => .ok []
  | a :: rest =>
    match f a with
    | .error e => .error e
    | .ok b =>
      match mapExcept f rest with
      | .error e => .error e
      | .ok bs => .ok (b :: bs)

/-- Model of `getSectionsHeadersRanges`: for each section name (in the
source's order `deps, compat, extras, targets`), the leftmost occurrence of
the literal `[sectionName]`, if any, as a range. -/
def getSectionsHeadersRanges (text : List Char) :
    List (ProjectTomlSection × Range) :=
  [ProjectTomlSection.deps, ProjectTomlSection.compat,
   ProjectTomlSection.extras, ProjectTomlSection.targets].filterMap fun s =>
    let header := headerChars (sectionChars s)
    (findFirst (fun cs => if header.isPrefixOf cs then some header.length else none)
        text).map fun il =>
      (s, mkRange (positionAtNat text il.1) (positionAtNat text (il.1 + il.2)))

/-- Model of `getSectionFieldsRanges`: bound the section with the
section-fields regex (indexing the `null` match with `[0]` throws a
`TypeError` when the regex does not match), then locate each entry inside
the bounded text (again `fieldPosition[0]` throws on a failed match) and
re-base its offsets by adding the bounded text's start offset. -/
def getSectionFieldsRanges (text : List Char) (sectionName : List Char)
    (fields : TomlDependency) :
    Except JsError (List ((List Char × List Char) × Range)) :=
  match matchSectionFields sectionName text with
  | none => .error .typeError
  | some (sectionFieldStart, mlen) =>
    let sectionFieldText := sliceText text sectionFieldStart (sectionFieldStart + mlen)
    mapExcept (fun kv =>
      match findFirst (tryFieldAt kv.1 kv.2) sectionFieldText with
      | none => .error .typeError
      | some (i, flen) =>
        .ok (kv, mkRange (positionAtNat text (i + sectionFieldStart))
                         (positionAtNat text (i + flen + sectionFieldStart)))) fields

/-- Model of `getFieldRange`: leftmost match of the field regex over the
whole document, or — when there is no match, so the computed `fieldLength`
is `0` — the "empty range" built from `positionAt(-1)` twice. -/
def getFieldRange (text : List Char) (key value : List Char) : Range :=
  match findFirst (tryFieldAt key value) text with
  | some (i, flen) =>
    mkRange (positionAtNat text i) (positionAtNat text (i + flen))
  | none => mkRange (positionAtI text (-1)) (positionAtI text (-1))

/-- Model of `fieldHover`: a hover with the key's tooltip when the range
contains the position. -/
def fieldHover (key : ProjectTomlKey) (range : Range) (position : Nat) :
    Option Hover :=
  if containsPos range position then
    some ⟨Tooltips.fieldTooltip key, range⟩
  else none

/-- First dependency range containing the position (the `for ... of` loops
of `sectionHover` return at the first hit). -/
def firstContaining (depsRanges : List ((List Char × List Char) × Range))
    (position : Nat) : Option ((List Char × List Char) × Range) :=
  depsRanges.find? fun dr => containsPos dr.2 position

/-- Model of `sectionHover`.  The three `if` blocks of the source run in
order and each returns at the first containing range: the
not-loading-and-not-ready block yields the static query-registries hint,
the loading block yields the static `'loading...'` hover, and the ready
block issues one `lens/pkgVersions` request per call (`fetch` models
`g_repl_connection.sendRequest`; a rejected request propagates as an
error).  The returned list collects the requests issued during the call;
the source keeps no cache, so every invocation sends its own request. -/
def sectionHover (_key : ProjectTomlSection) (loading ready : Bool)
    (fetch : PkgVersionsParams → Except JsError PkgVersionsResponse)
    (depsRanges : List ((List Char × List Char) × Range)) (position : Nat) :
    Except JsError (Option Hover × List PkgVersionsParams) :=
  match (if !(loading || ready) then firstContaining depsRanges position else none) with
  | some dr => .ok (some ⟨Tooltips.queryRegistriesHint, dr.2⟩, [])
  | none =>
  match (if loading then firstContaining depsRanges position else none) with
  | some dr => .ok (some ⟨"loading...", dr.2⟩, [])
  | none =>
  match (if ready then firstContaining depsRanges position else none) with
  | some dr =>
    let params : PkgVersionsParams := ⟨dr.1.1, dr.1.2⟩
    (match fetch params with
     | .error e => .error e
     | .ok resp =>
       .ok (some ⟨Tooltips.DependencyHover ⟨dr.1.1⟩ resp.latest_version
                    resp.url resp.registry, dr.2⟩, [params]))
  | none => .ok (none, [])

/-- Model of `provideFieldsAndHeadersHover`: parse the document (a parse
exception propagates), then try the `uuid`, `name` and `version` fields in
that order, then the section headers; the first hit wins. -/
def provideFieldsAndHeadersHover (text : List Char) (position : Nat) :
    Except JsError (Option Hover) :=
  match getProjectTomlFields text with
  | .error _ => .error .parseError
  | .ok p =>
    match (match p.uuid with
           | some v => fieldHover .uuid (getFieldRange text (keyChars .uuid) v) position
           | none => none) with
    | some h => .ok (some h)
    | none =>
    match (match p.name with
           | some v => fieldHover .name (getFieldRange text (keyChars .name) v) position
           | none => none) with
    | some h => .ok (some h)
    | none =>
    match (match p.version with
           | some v => fieldHover .version (getFieldRange text (keyChars .version) v) position
           | none => none) with
    | some h => .ok (some h)
    | none =>
      match (getSectionsHeadersRanges text).find? (fun sr => containsPos sr.2 position) with
      | some (sname, r) => .ok (some ⟨Tooltips.sectionsHeaders sname, r⟩)
      | none => .ok none

/-- Program counter of one `queryRegistries` invocation.  `start` is before
the connection check; `awaiting` is suspended inside `await startREPL(false)`
(the bootstrap has been started); `doneDirect` finished through the
connection-already-defined path; `doneBoot` finished after its own
bootstrap completed. -/
inductive QPC
  | start
  | awaiting
  | doneDirect
  | doneBoot
deriving DecidableEq, Repr, Fintype

/-- Global state of the version-lens readiness machinery with two
concurrent `queryRegistries` invocations.  `connection` models
`g_repl_connection !== undefined`; `loading` and `ready` are
`g_juliaVersionLensRegistriesLoading` / `...Ready`.

Modelled from the spec: `startREPL` lives in `./repl`, outside the sources
under verification; per the spec's concurrency model the bootstrap
establishes the external service connection only when it completes, so
`connection` becomes true exactly when an `awaiting` invocation resumes. -/
structure Sys where
  connection : Bool
  loading : Bool
  ready : Bool
  pc1 : QPC
  pc2 : QPC
deriving DecidableEq, Repr, Fintype

/-- Modelled from the spec: `startREPL` lives in `./repl`, which is not
among the sources under verification; per the spec, the bootstrap
collaborator establishes the external service session, so upon the
bootstrap's completion the connection (`g_repl_connection`) is defined. -/
def startREPLComplete (s : Sys) : Sys := { s with connection := true }

/-- One cooperative step of a `queryRegistries` invocation.  From `start`:
the guard `g_repl_connection === undefined` either jumps to the final
`g_juliaVersionLensRegistriesReady = true` (connection defined) or sets the
loading flag, calls `startREPL` and suspends.  Resuming from `awaiting`
runs the rest of the function atomically (no further await point): the
bootstrap has completed, the loading flag is cleared and the ready flag
set. -/
def stepTask (s : Sys) (pc : QPC) : Sys × QPC :=
  match pc with
  | .start =>
    if s.connection then ({ s with ready := true }, .doneDirect)
    else ({ s with loading := true }, .awaiting)
  | .awaiting => ({ startREPLComplete s with loading := false, ready := true }, .doneBoot)
  | .doneDirect => (s, .doneDirect)
  | .doneBoot => (s, .doneBoot)

/-- Scheduler step: `true` advances invocation 1, `false` advances
invocation 2 (a finished invocation is a no-op). -/
def schedStep (s : Sys) (b : Bool) : Sys :=
  if b then
    let r := stepTask s s.pc1
    { r.1 with pc1 := r.2 }
  else
    let r := stepTask s s.pc2
    { r.1 with pc2 := r.2 }

/-- The initial state: no connection, flags false, both invocations about to
run. -/
def initSys : Sys := ⟨false, false, false, .start, .start⟩

/-- Run a schedule from the initial state. -/
def runSched (sched : List Bool) : Sys := sched.foldl schedStep initSys

/-- Has this invocation called `startREPL`? -/
def bootStarted : QPC → Bool
  | .awaiting => true
  | .doneBoot => true
  | _ => false

/-- Number of `startREPL` (bootstrap) calls made so far. -/
def startCalls (s : Sys) : Nat :=
  (if bootStarted s.pc1 then 1 else 0) + (if bootStarted s.pc2 then 1 else 0)

/-- The readiness state of the spec's state machine, as an order:
`Uninitialized` = 0, `Loading` = 1, `Ready` = 2. -/
def rank (s : Sys) : Nat :=
  if s.ready then 2 else if s.loading then 1 else 0

/-- Reachability invariant: the ready flag is only ever set alongside or
after the connection. -/
def SysInv (s : Sys) : Prop := s.ready = true → s.connection = true

instance : DecidablePred SysInv := fun s => by
  unfold SysInv
  infer_instance

/-- A metadata query (hover) step of the whole system: `sectionHover` reads
the readiness flags and writes nothing, so the global state is returned
untouched whatever the RPC outcome. -/
def hoverStep (s : Sys) (key : ProjectTomlSection)
    (fetch : PkgVersionsParams → Except JsError PkgVersionsResponse)
    (depsRanges : List ((List Char × List Char) × Range)) (position : Nat) :
    Sys × Except JsError (Option Hover × List PkgVersionsParams) :=
  (s, sectionHover key s.loading s.ready fetch depsRanges position)

/-- The language of the field regex ``key[ ]*=[ ]*("|')value("|')``: `s` is
exactly the key, a run of spaces, `=`, a run of spaces, and the value
between two (independently chosen) quote characters. -/
def FieldPattern (key value s : List Char) : Prop :=
  ∃ n1 n2 q1 q2, isQuote q1 = true ∧ isQuote q2 = true ∧
    s = key ++ (List.replicate n1 ' ' ++
      ('=' :: (List.replicate n2 ' ' ++ (q1 :: (value ++ [q2])))))

/-- The language of the field regex with the interpolated key and value
read atom-by-atom (see `atomMatches`): `s` is a key-matching segment, a run
of spaces, `=`, a run of spaces, and a value-matching segment between two
(independently chosen) quote characters.  For fully literal keys and
values this collapses to `FieldPattern`. -/
def FieldPatternRx (key value s : List Char) : Prop :=
  ∃ k n1 n2 q1 q2 v, isQuote q1 = true ∧ isQuote q2 = true ∧
    atomsMatch key k = true ∧ atomsMatch value v = true ∧
    s = k ++ (List.replicate n1 ' ' ++
      ('=' :: (List.replicate n2 ' ' ++ (q1 :: (v ++ [q2])))))

/-- Does `needle` occur as a contiguous substring of `hay`? -/
def containsSub (hay needle : List Char) : Bool :=
  (findFirst (fun cs => if needle.isPrefixOf cs then some needle.length else none)
    hay).isSome

/-- Decidable equality for `Except` results. -/
instance {e a : Type} [DecidableEq e] [DecidableEq a] : DecidableEq (Except e a) := fun x y =>
  match x, y with
  | .error e1, .error e2 =>
    if h : e1 = e2 then .isTrue (by rw [h]) else .isFalse (by intro hc; cases hc; exact h rfl)
  | .ok a1, .ok a2 =>
    if h : a1 = a2 then .isTrue (by rw [h]) else .isFalse (by intro hc; cases hc; exact h rfl)
  | .error _, .ok _ => .isFalse (by intro hc; cases hc)
  | .ok _, .error _ => .isFalse (by intro hc; cases hc)

theorem drop_spacesCount (xs : List Char) :
    xs.drop (spacesCount xs) = xs.dropWhile (fun c => c = ' ') := by
  unfold spacesCount
  nth_rewrite 2 [← List.takeWhile_append_dropWhile (fun c => c = ' ') xs]
  exact List.drop_left _ _

theorem takeWhile_spaces_replicate (xs : List Char) :
    xs.takeWhile (fun c => c = ' ') = List.replicate (spacesCount xs) ' ' := by
  unfold spacesCount
  apply List.eq_replicate_of_mem
  intro b hb
  have hb2 := @List.mem_takeWhile_imp Char (fun c => decide (c = ' ')) xs b hb
  exact of_decide_eq_true hb2

theorem spaces_decomp (xs : List Char) :
    xs = List.replicate (spacesCount xs) ' ' ++ xs.drop (spacesCount xs) := by
  conv_lhs => rw [← List.takeWhile_append_dropWhile (fun c => c = ' ') xs]
  rw [takeWhile_spaces_replicate, drop_spacesCount]

theorem findFirst_sound (f : List Char → Option Nat) :
    ∀ (cs : List Char) (i l : Nat), findFirst f cs = some (i, l) →
      i ≤ cs.length ∧ f (cs.drop i) = some l := by
  intro cs
  induction cs with
  | nil =>
    intro i l h
    simp only [findFirst] at h
    cases hf : f [] with
    | none => rw [hf] at h; simp at h
    | some l0 =>
      rw [hf] at h
      simp only [Option.map_some', Option.some.injEq, Prod.mk.injEq] at h
      obtain ⟨h1, h2⟩ := h
      subst h1; subst h2
      exact ⟨Nat.le_refl 0, by simpa using hf⟩
  | cons c rest ih =>
    intro i l h
    simp only [findFirst] at h
    cases hf : f (c :: rest) with
    | some l0 =>
      rw [hf] at h
      simp only [Option.some.injEq, Prod.mk.injEq] at h
      obtain ⟨h1, h2⟩ := h
      subst h1; subst h2
      exact ⟨Nat.zero_le _, by simpa using hf⟩
    | none =>
      rw [hf] at h
      cases hr : findFirst f rest with
      | none => rw [hr] at h; simp at h
      | some p =>
        rw [hr] at h
        simp only [Option.map_some', Option.some.injEq, Prod.mk.injEq] at h
        obtain ⟨h1, h2⟩ := h
        subst h1; subst h2
        obtain ⟨hle, hdrop⟩ := ih p.1 p.2 hr
        refine ⟨by simpa using Nat.succ_le_succ hle, ?_⟩
        simpa [List.drop_succ_cons] using hdrop


theorem atomsPrefix_le : ∀ {p cs : List Char}, atomsPrefix p cs = true →
    p.length ≤ cs.length := by
  intro p
  induction p with
  | nil => intro cs h; simp
  | cons a ps ih =>
    intro cs h
    cases cs with
    | nil => simp [atomsPrefix] at h
    | cons c rest =>
      simp only [atomsPrefix, Bool.and_eq_true] at h
      have := ih h.2
      simp only [List.length_cons]
      omega

theorem atomsPrefix_matches : ∀ {p cs : List Char}, atomsPrefix p cs = true →
    atomsMatch p (cs.take p.length) = true := by
  intro p
  induction p with
  | nil => intro cs h; simp [atomsMatch]
  | cons a ps ih =>
    intro cs h
    cases cs with
    | nil => simp [atomsPrefix] at h
    | cons c rest =>
      simp only [atomsPrefix, Bool.and_eq_true] at h
      simp only [List.length_cons, List.take_succ_cons, atomsMatch, Bool.and_eq_true]
      exact ⟨h.1, ih h.2⟩

theorem atomsMatch_length : ∀ {p s : List Char}, atomsMatch p s = true →
    s.length = p.length := by
  intro p
  induction p with
  | nil =>
    intro s h
    cases s with
    | nil => rfl
    | cons c cs => simp [atomsMatch] at h
  | cons a ps ih =>
    intro s h
    cases s with
    | nil => simp [atomsMatch] at h
    | cons c cs =>
      simp only [atomsMatch, Bool.and_eq_true] at h
      simp only [List.length_cons, ih h.2]

theorem atomsMatch_eq : ∀ {p s : List Char}, noDot p = true →
    atomsMatch p s = true → s = p := by
  intro p
  induction p with
  | nil =>
    intro s hp h
    cases s with
    | nil => rfl
    | cons c cs => simp [atomsMatch] at h
  | cons a ps ih =>
    intro s hp h
    cases s with
    | nil => simp [atomsMatch] at h
    | cons c cs =>
      simp only [atomsMatch, Bool.and_eq_true] at h
      simp only [noDot, List.all_cons, Bool.and_eq_true] at hp
      have hne : ¬(a = '.') := by simpa using hp.1
      have ha : c = a := by
        have h1 := h.1
        unfold atomMatches at h1
        rw [if_neg hne] at h1
        exact (of_decide_eq_true h1).symm
      have hcs : cs = ps := ih (by unfold noDot; exact hp.2) h.2
      rw [ha, hcs]

theorem regexLiteralChars_noDot {p : List Char} (h : regexLiteralChars p = true) :
    noDot p = true := by
  unfold regexLiteralChars at h
  unfold noDot
  rw [List.all_eq_true] at h ⊢
  intro c hc
  have h2 := h c hc
  simp only [Bool.and_eq_true] at h2
  exact h2.2

theorem fieldPatternRx_literal {key value s : List Char}
    (hk : noDot key = true) (hv : noDot value = true)
    (h : FieldPatternRx key value s) : FieldPattern key value s := by
  obtain ⟨k, n1, n2, q1, q2, v, hq1, hq2, hmk, hmv, heq⟩ := h
  rw [atomsMatch_eq hk hmk, atomsMatch_eq hv hmv] at heq
  exact ⟨n1, n2, q1, q2, hq1, hq2, heq⟩

theorem FieldPattern_tail {key value s : List Char} (h : FieldPattern key value s) :
    (s.reverse.drop 1).take value.length = value.reverse := by
  obtain ⟨n1, n2, q1, q2, -, -, heq⟩ := h
  subst heq
  simp only [List.reverse_append, List.reverse_cons, List.append_assoc,
    List.singleton_append, List.reverse_nil, List.nil_append, List.drop_succ_cons,
    List.drop_zero]
  rw [show value.length = value.reverse.length by simp]
  exact List.take_left _ _

theorem tryFieldAt_sound {key value cs : List Char} {len : Nat}
    (h : tryFieldAt key value cs = some len) :
    len ≤ cs.length ∧ FieldPatternRx key value (cs.take len) := by
  unfold tryFieldAt at h
  split_ifs at h with hpre
  split at h
  next cs2 heq1 =>
    split at h
    next q1 cs3 heq2 =>
      split_ifs at h with hq1v
      split at h
      next q2 rest4 heq3 =>
        split_ifs at h with hq2
        simp only [Option.some.injEq] at h
        have hq1v2 : isQuote q1 = true ∧ atomsPrefix value cs3 = true := by
          simpa [Bool.and_eq_true] using hq1v
        obtain ⟨hq1, hval⟩ := hq1v2
        set n1 := spacesCount (cs.drop key.length) with hn1
        set n2 := spacesCount cs2 with hn2
        set K := cs.take key.length with hK
        set V := cs3.take value.length with hV
        have hKlen : K.length = key.length := by
          rw [hK]
          have := atomsPrefix_le hpre
          simp only [List.length_take]
          omega
        have hVlen : V.length = value.length := by
          rw [hV]
          have := atomsPrefix_le hval
          simp only [List.length_take]
          omega
        have hkmatch : atomsMatch key K = true := by
          rw [hK]; exact atomsPrefix_matches hpre
        have hvmatch : atomsMatch value V = true := by
          rw [hV]; exact atomsPrefix_matches hval
        have hcs : K ++ cs.drop key.length = cs := by
          rw [hK]; exact List.take_append_drop _ _
        have hcs1 : cs.drop key.length =
            List.replicate n1 ' ' ++ ('=' :: cs2) := by
          conv_lhs => rw [spaces_decomp (cs.drop key.length)]
          rw [← hn1, heq1]
        have hcs2 : cs2 = List.replicate n2 ' ' ++ (q1 :: cs3) := by
          conv_lhs => rw [spaces_decomp cs2]
          rw [← hn2, heq2]
        have hcs3 : cs3 = V ++ (q2 :: rest4) := by
          rw [hV, ← heq3]
          exact (List.take_append_drop value.length cs3).symm
        have hfull : cs =
            (K ++ (List.replicate n1 ' ' ++
              ('=' :: (List.replicate n2 ' ' ++
                (q1 :: (V ++ [q2])))))) ++ rest4 := by
          conv_lhs => rw [← hcs, hcs1, hcs2, hcs3]
          simp [List.append_assoc]
        subst h
        have hplen : key.length + n1 + 1 + n2 + 1 + value.length + 1 =
            (K ++ (List.replicate n1 ' ' ++
              ('=' :: (List.replicate n2 ' ' ++
                (q1 :: (V ++ [q2])))))).length := by
          simp only [List.length_append, List.length_replicate, List.length_cons,
            List.length_singleton, List.length_nil, hKlen, hVlen]
          omega
        constructor
        · conv_rhs => rw [hfull]
          simp only [List.length_append, List.length_replicate, List.length_cons,
            List.length_singleton, List.length_nil, hKlen, hVlen]
          omega
        · refine ⟨K, n1, n2, q1, q2, V, hq1, hq2, hkmatch, hvmatch, ?_⟩
          rw [hfull, hplen, List.take_left]
      next heq3 => simp at h
    next heq2 => simp at h
  next heq1 => simp at h

theorem take_one_len {cs : List Char} {a : Char} (h : cs.take 1 = [a]) :
    1 ≤ cs.length := by
  cases cs with
  | nil => simp at h
  | cons c r => simp

theorem take_two_len {cs : List Char} {a b : Char} (h : cs.take 2 = [a, b]) :
    2 ≤ cs.length := by
  cases cs with
  | nil => simp at h
  | cons c r =>
    cases r with
    | nil => simp at h
    | cons c2 r2 => simp


theorem nlToks_mem_le {cs : List Char} {l : Nat} (h : l ∈ nlToks cs) :
    1 ≤ l ∧ l ≤ cs.length := by
  unfold nlToks at h
  rcases List.mem_append.mp h with h12 | h3
  · rcases List.mem_append.mp h12 with h1 | h2
    · by_cases ht : cs.take 2 = ['\r', '\n']
      · rw [if_pos ht] at h1
        simp at h1
        subst h1
        exact ⟨by omega, take_two_len ht⟩
      · rw [if_neg ht] at h1
        simp at h1
    · by_cases ht : cs.take 1 = ['\r']
      · rw [if_pos ht] at h2
        simp at h2
        subst h2
        exact ⟨by omega, take_one_len ht⟩
      · rw [if_neg ht] at h2
        simp at h2
  · by_cases ht : cs.take 1 = ['\n']
    · rw [if_pos ht] at h3
      simp at h3
      subst h3
      exact ⟨by omega, take_one_len ht⟩
    · rw [if_neg ht] at h3
      simp at h3

theorem suffixTail_le {cs : List Char} {l r : Nat} (hl : l ≤ cs.length)
    (h : suffixTail cs l = some r) : r ≤ cs.length := by
  unfold suffixTail at h
  split_ifs at h with hbr
  · simp only [Option.some.injEq] at h
    have h1 := take_one_len hbr
    simp only [List.length_drop] at h1
    omega
  · cases hnl : nlToks (cs.drop l) with
    | nil => rw [hnl] at h; simp at h
    | cons l2 ls =>
      rw [hnl] at h
      simp only [List.head?_cons, Option.map_some', Option.some.injEq] at h
      have hmem : l2 ∈ nlToks (cs.drop l) := by
        rw [hnl]; exact List.mem_cons_self l2 ls
      have h2 := (nlToks_mem_le hmem).2
      simp only [List.length_drop] at h2
      omega

theorem suffixAt_le {cs : List Char} {r : Nat} (h : suffixAt cs = some r) :
    r ≤ cs.length := by
  unfold suffixAt at h
  cases hnl : nlToks cs with
  | nil => rw [hnl] at h; simp at h
  | cons l ls =>
    rw [hnl] at h
    have hl : l ≤ cs.length :=
      (nlToks_mem_le (show l ∈ nlToks cs by rw [hnl]; exact List.mem_cons_self l ls)).2
    cases ls with
    | nil => exact suffixTail_le hl h
    | cons l2 ls2 =>
      have hl2 : l2 ≤ cs.length :=
        (nlToks_mem_le (show l2 ∈ nlToks cs by rw [hnl]; simp)).2
      have h2 : (suffixTail cs l).orElse (fun _ => suffixTail cs l2) = some r := h
      cases hst : suffixTail cs l with
      | some r1 =>
        rw [hst] at h2
        simp only [Option.orElse, Option.some.injEq] at h2
        subst h2
        exact suffixTail_le hl hst
      | none =>
        rw [hst] at h2
        simp only [Option.orElse] at h2
        exact suffixTail_le hl2 h2

theorem largestSuffix_le : ∀ {cs : List Char} {q sl : Nat},
    largestSuffix cs = some (q, sl) → q + sl ≤ cs.length := by
  intro cs
  induction cs with
  | nil =>
    intro q sl h
    simp only [largestSuffix] at h
    cases hs : suffixAt [] with
    | none => rw [hs] at h; simp at h
    | some r =>
      rw [hs] at h
      simp only [Option.map_some', Option.some.injEq, Prod.mk.injEq] at h
      obtain ⟨h1, h2⟩ := h
      subst h1; subst h2
      simpa using suffixAt_le hs
  | cons c rest ih =>
    intro q sl h
    simp only [largestSuffix] at h
    cases hr : largestSuffix rest with
    | some p =>
      rw [hr] at h
      simp only [Option.some.injEq, Prod.mk.injEq] at h
      obtain ⟨h1, h2⟩ := h
      subst h1; subst h2
      have := ih hr
      simp only [List.length_cons]
      omega
    | none =>
      rw [hr] at h
      cases hs : suffixAt (c :: rest) with
      | none => rw [hs] at h; simp at h
      | some r =>
        rw [hs] at h
        simp only [Option.map_some', Option.some.injEq, Prod.mk.injEq] at h
        obtain ⟨h1, h2⟩ := h
        subst h1; subst h2
        simpa using suffixAt_le hs

theorem sectionBodyAt_le {sectionName cs : List Char} {L : Nat}
    (h : sectionBodyAt sectionName cs = some L) : L ≤ cs.length := by
  unfold sectionBodyAt at h
  split_ifs at h with hpre
  have hhl : (headerChars sectionName).length ≤ cs.length :=
    (List.isPrefixOf_iff_prefix.mp hpre).length_le
  cases hls : largestSuffix (cs.drop (headerChars sectionName).length) with
  | none => rw [hls] at h; simp at h
  | some p =>
    rw [hls] at h
    simp only [Option.map_some', Option.some.injEq] at h
    have hb := largestSuffix_le
      (show largestSuffix (cs.drop (headerChars sectionName).length) = some (p.1, p.2) by
        rw [hls])
    simp only [List.length_drop] at hb
    omega

theorem mapExcept_ok_mem {α β : Type} {f : α → Except JsError β} :
    ∀ {l : List α} {out : List β}, mapExcept f l = .ok out →
      ∀ b ∈ out, ∃ a ∈ l, f a = .ok b := by
  intro l
  induction l with
  | nil =>
    intro out h b hb
    simp only [mapExcept, Except.ok.injEq] at h
    subst h
    simp at hb
  | cons a rest ih =>
    intro out h b hb
    simp only [mapExcept] at h
    cases hfa : f a with
    | error e => rw [hfa] at h; simp at h
    | ok b0 =>
      rw [hfa] at h
      cases hrest : mapExcept f rest with
      | error e => rw [hrest] at h; simp at h
      | ok bs =>
        rw [hrest] at h
        simp only [Except.ok.injEq] at h
        subst h
        rcases List.mem_cons.mp hb with hb0 | hbs
        · subst hb0
          exact ⟨a, List.mem_cons_self a rest, hfa⟩
        · obtain ⟨a2, ha2, hfa2⟩ := ih hrest b hbs
          exact ⟨a2, List.mem_cons_of_mem a ha2, hfa2⟩

theorem findFirst_tryFieldAt_pattern {text key value : List Char} {i len : Nat}
    (h : findFirst (tryFieldAt key value) text = some (i, len)) :
    i + len ≤ text.length ∧ FieldPatternRx key value (sliceText text i (i + len)) := by
  obtain ⟨hi, hdrop⟩ := findFirst_sound (tryFieldAt key value) text i len h
  obtain ⟨hlen, hpat⟩ := tryFieldAt_sound hdrop
  simp only [List.length_drop] at hlen
  refine ⟨by omega, ?_⟩
  unfold sliceText
  have : i + len - i = len := by omega
  rw [this]
  exact hpat

theorem getSectionFieldsRanges_ok_mem {text sectionName : List Char}
    {fields : TomlDependency} {out : List ((List Char × List Char) × Range)}
    (hok : getSectionFieldsRanges text sectionName fields = .ok out) :
    ∀ kv r, (kv, r) ∈ out →
      r.start ≤ r.stop ∧ r.stop ≤ text.length ∧
      FieldPatternRx kv.1 kv.2 (sliceText text r.start r.stop) := by
  intro kv r hmem
  unfold getSectionFieldsRanges at hok
  cases hm : matchSectionFields sectionName text with
  | none => rw [hm] at hok; simp at hok
  | some sL =>
    obtain ⟨s, L⟩ := sL
    rw [hm] at hok
    have hok2 : mapExcept (fun kv =>
        match findFirst (tryFieldAt kv.1 kv.2) (sliceText text s (s + L)) with
        | none => .error .typeError
        | some (i, flen) =>
          .ok (kv, mkRange (positionAtNat text (i + s))
                           (positionAtNat text (i + flen + s)))) fields = .ok out := hok
    obtain ⟨a, ha, hfa⟩ := mapExcept_ok_mem hok2 (kv, r) hmem
    obtain ⟨hs_le, hbody⟩ :=
      findFirst_sound (sectionBodyAt sectionName) text s L (by
        unfold matchSectionFields at hm; exact hm)
    have hL : L ≤ text.length - s := by
      have := sectionBodyAt_le hbody
      simpa [List.length_drop] using this
    have hSTlen : (sliceText text s (s + L)).length = L := by
      simp only [sliceText, List.length_take, List.length_drop]
      omega
    cases hff : findFirst (tryFieldAt a.1 a.2) (sliceText text s (s + L)) with
    | none =>
      rw [hff] at hfa
      exact absurd hfa (by simp)
    | some il =>
      obtain ⟨i, flen⟩ := il
      rw [hff] at hfa
      have hfa2 : (Except.ok (a, mkRange (positionAtNat text (i + s))
          (positionAtNat text (i + flen + s))) :
            Except JsError ((List Char × List Char) × Range)) = Except.ok (kv, r) := hfa
      simp only [Except.ok.injEq, Prod.mk.injEq] at hfa2
      obtain ⟨hakv, hrange⟩ := hfa2
      obtain ⟨hiL0, hdrop⟩ :=
        findFirst_sound (tryFieldAt a.1 a.2) (sliceText text s (s + L)) i flen hff
      have hiL : i ≤ L := by rwa [hSTlen] at hiL0
      obtain ⟨hflen0, hpat⟩ := tryFieldAt_sound hdrop
      have hflen2 : flen ≤ L - i := by
        rw [List.length_drop, hSTlen] at hflen0
        exact hflen0
      have hp1 : positionAtNat text (i + s) = i + s := by
        simp only [positionAtNat]
        omega
      have hp2 : positionAtNat text (i + flen + s) = i + flen + s := by
        simp only [positionAtNat]
        omega
      have hmk : mkRange (i + s) (i + flen + s) = ⟨i + s, i + flen + s⟩ := by
        unfold mkRange
        rw [if_pos (by omega)]
      have hr : r = ⟨i + s, i + flen + s⟩ := by
        rw [← hrange, hp1, hp2, hmk]
      have hslice : sliceText text (i + s) (i + flen + s) =
          ((sliceText text s (s + L)).drop i).take flen := by
        unfold sliceText
        have e1 : s + L - s = L := by omega
        rw [e1, List.drop_take, List.drop_drop, List.take_take]
        have e2 : i + flen + s - (i + s) = flen := by omega
        have e3 : flen ⊓ (L - i) = flen := by omega
        have e4 : s + i = i + s := by omega
        rw [e2, e3, e4]
      subst hr
      subst hakv
      refine ⟨show i + s ≤ i + flen + s by omega,
        show i + flen + s ≤ text.length by omega, ?_⟩
      show FieldPatternRx a.1 a.2 (sliceText text (i + s) (i + flen + s))
      rw [hslice]
      exact hpat

theorem schedStep_mono_inv : ∀ (s : Sys) (b : Bool), SysInv s →
    rank s ≤ rank (schedStep s b) ∧ SysInv (schedStep s b) := by decide

theorem sysInv_init : SysInv initSys := by decide

theorem sysInv_foldl : ∀ (l : List Bool) (s : Sys), SysInv s →
    SysInv (l.foldl schedStep s) := by
  intro l
  induction l with
  | nil => intro s hs; simpa using hs
  | cons b rest ih =>
    intro s hs
    simp only [List.foldl_cons]
    exact ih _ (schedStep_mono_inv s b hs).2

theorem sysInv_runSched (sched : List Bool) : SysInv (runSched sched) :=
  sysInv_foldl sched initSys sysInv_init

/-- C1: the claim asserts two concurrent `queryRegistries` invocations make
the bootstrap call (`startREPL`) exactly once.  Evaluating the machine at
the interleaving in which the second trigger runs its connection check
while the first is still awaiting `startREPL` shows both invocations pass
the `g_repl_connection === undefined` guard (it is not a guard on the
loading flag), so `startREPL` is called twice; both invocations complete
and the ready flag still ends true. -/
theorem queryRegistries_concurrent_double_bootstrap :
    runSched [true, false, true, false] =
      ⟨true, false, true, QPC.doneBoot, QPC.doneBoot⟩
    ∧ startCalls (runSched [true, false, true, false]) = 2 := by decide

/-- C2: the claim (and the regex's own in-source diagram comment) says the
section body is bounded from the first header occurrence to the next header
token or end-of-text.  Evaluating the embedded regex shows: on a document
with sections `deps`, `compat`, `extras`, the `deps` match is `[0, 33)`
while the next header `[compat]` occupies `[15, 23)` — the greedy
`(NEWLINE_DELIMITER|.)*` runs to the last terminator, swallowing the whole
`[compat]` section — and on a document whose section runs to end-of-text
the regex does not match at all, so `getSectionFieldsRanges` throws instead
of bounding at end-of-text. -/
theorem sectionFields_regex_greedy_and_requires_terminator :
    matchSectionFields (strL "deps")
      (strL "[deps]\nA = \"1\"\n[compat]\nB = \"2\"\n[extras]\nC = \"3\"\n") = some (0, 33)
    ∧ findFirst (fun cs => if (headerChars (strL "compat")).isPrefixOf cs then
          some (headerChars (strL "compat")).length else none)
        (strL "[deps]\nA = \"1\"\n[compat]\nB = \"2\"\n[extras]\nC = \"3\"\n") = some (15, 8)
    ∧ containsSub
        (sliceText (strL "[deps]\nA = \"1\"\n[compat]\nB = \"2\"\n[extras]\nC = \"3\"\n") 0 33)
        (headerChars (strL "compat")) = true
    ∧ matchSectionFields (strL "deps") (strL "[deps]\nA = \"1\"") = none
    ∧ getSectionFieldsRanges (strL "[deps]\nA = \"1\"") (strL "deps")
        [(strL "A", strL "1")] = .error .typeError :=
  ⟨by decide, by decide, by decide, by decide, by decide⟩

/-- C3: the claim asserts that re-locating every field and entry the parser
reported succeeds with no error for well-formed single-line manifests.
Evaluating the code on `name = "Foo"\n[deps]\nBar = "xyz"` (well-formed,
single-line pairs, reported `deps` entry `Bar`): the parse succeeds, but
re-locating the `deps` entries throws a `TypeError`, because the section
regex requires a trailing `newline [` or blank line and the final section
reaches end-of-text. -/
theorem roundTrip_relocation_throws_at_eof :
    getProjectTomlFields (strL "name = \"Foo\"\n[deps]\nBar = \"xyz\"") =
      .ok ⟨some (strL "Foo"), none, none, some [(strL "Bar", strL "xyz")],
           none, none, none⟩
    ∧ getSectionFieldsRanges (strL "name = \"Foo\"\n[deps]\nBar = \"xyz\"") (strL "deps")
        [(strL "Bar", strL "xyz")] = .error .typeError := by decide

/-- C4: the claim asserts every failed lookup returns a `NotFound` sentinel
and never raises.  Evaluating the code: an entry that cannot be located in
a bounded section makes `getSectionFieldsRanges` throw a `TypeError`
(`fieldPosition[0]` on a `null` match), and a top-level field that cannot
be located makes `getFieldRange` return the empty range at offset `0` — the
code has no `NotFound` sentinel at all. -/
theorem locator_miss_throws_typeError_and_empty_range :
    getSectionFieldsRanges (strL "[deps]\nA = \"1\"\n\n") (strL "deps")
      [(strL "B", strL "z")] = .error .typeError
    ∧ getFieldRange (strL "[deps]\nA = \"1\"\n\n") (strL "uuid") (strL "u") = ⟨0, 0⟩ := by
  decide

/-- C5 counterexample: the claim as stated fails in two ways.  When the
top-level locator cannot find the pattern, `getFieldRange` still returns a
Span (the empty range at offset `0`) whose covered text (the empty string)
is no occurrence of `key <ws>= <ws><quote>value<quote>`.  And the value is
interpolated into a `RegExp`, so its metacharacters keep their regex
meaning: for the compat entry `(Foo, "1.2")` the leftmost match lands
inside `BarFoo = "1Q2"` (the `.` matches `Q`) and the returned span's text
`Foo = "1Q2"` is not an exact occurrence of the pattern either. -/
theorem fieldRange_miss_span_no_occurrence :
    (getFieldRange (strL "name = \"X\"\n") (strL "uuid") (strL "u") = ⟨0, 0⟩
      ∧ ¬ FieldPattern (strL "uuid") (strL "u")
          (sliceText (strL "name = \"X\"\n") 0 0))
    ∧ (getSectionFieldsRanges (strL "[compat]\nBarFoo = \"1Q2\"\nFoo = \"1.2\"\n\n")
          (strL "compat") [(strL "Foo", strL "1.2")] =
        .ok [((strL "Foo", strL "1.2"), ⟨12, 23⟩)]
      ∧ sliceText (strL "[compat]\nBarFoo = \"1Q2\"\nFoo = \"1.2\"\n\n") 12 23 =
          strL "Foo = \"1Q2\""
      ∧ ¬ FieldPattern (strL "Foo") (strL "1.2") (strL "Foo = \"1Q2\"")) := by
  refine ⟨⟨by decide, ?_⟩, by decide, by decide, ?_⟩
  · rintro ⟨n1, n2, q1, q2, -, -, heq⟩
    have hlen := congrArg List.length heq
    simp only [List.length_append, List.length_replicate, List.length_cons,
      List.length_nil] at hlen
    have h4 : (strL "uuid").length = 4 := rfl
    have h0 : (sliceText (strL "name = \"X\"\n") 0 0).length = 0 := rfl
    omega
  · intro h
    have htail := FieldPattern_tail h
    exact absurd htail (by decide)

/-- C5 (amended): every Span produced by a successful match of the field
regex — a top-level field match in `getFieldRange`, or a section entry in a
successful `getSectionFieldsRanges` call — covers text that matches the
interpolated pattern `key <ws>= <ws><quote>value<quote>` with the key and
value read atom-by-atom (a `.` in the value matches any character, as in
the source's `RegExp`); when the key and value consist of regex-literal
characters only, that text is the exact occurrence of the pattern, and in
particular the deps entry `Foo = "1234-uuid"` is returned with exactly that
text.  (The not-found fallback of `getFieldRange` — the empty range at
offset `0` — covers no occurrence; see the counterexample.) -/
theorem located_spans_cover_exact_occurrence :
    (∀ (text key value : List Char) (i len : Nat),
        regexAtomChars key = true → regexAtomChars value = true →
        findFirst (tryFieldAt key value) text = some (i, len) →
        FieldPatternRx key value (sliceText text i (i + len)))
    ∧ (∀ (text sectionName : List Char) (fields : TomlDependency)
          (out : List ((List Char × List Char) × Range)),
        getSectionFieldsRanges text sectionName fields = .ok out →
        ∀ kv r, (kv, r) ∈ out →
          regexAtomChars kv.1 = true → regexAtomChars kv.2 = true →
          FieldPatternRx kv.1 kv.2 (sliceText text r.start r.stop))
    ∧ (∀ (text key value : List Char) (i len : Nat),
        regexLiteralChars key = true → regexLiteralChars value = true →
        findFirst (tryFieldAt key value) text = some (i, len) →
        FieldPattern key value (sliceText text i (i + len)))
    ∧ (∀ (text sectionName : List Char) (fields : TomlDependency)
          (out : List ((List Char × List Char) × Range)),
        getSectionFieldsRanges text sectionName fields = .ok out →
        ∀ kv r, (kv, r) ∈ out →
          regexLiteralChars kv.1 = true → regexLiteralChars kv.2 = true →
          FieldPattern kv.1 kv.2 (sliceText text r.start r.stop))
    ∧ getSectionFieldsRanges (strL "[deps]\nFoo = \"1234-uuid\"\n\n") (strL "deps")
        [(strL "Foo", strL "1234-uuid")] =
        .ok [((strL "Foo", strL "1234-uuid"), ⟨7, 24⟩)]
    ∧ sliceText (strL "[deps]\nFoo = \"1234-uuid\"\n\n") 7 24 = strL "Foo = \"1234-uuid\"" := by
  refine ⟨?_, ?_, ?_, ?_, by decide, by decide⟩
  · intro text key value i len _ _ h
    exact (findFirst_tryFieldAt_pattern h).2
  · intro text sectionName fields out hok kv r hmem _ _
    exact (getSectionFieldsRanges_ok_mem hok kv r hmem).2.2
  · intro text key value i len hk hv h
    exact fieldPatternRx_literal (regexLiteralChars_noDot hk) (regexLiteralChars_noDot hv)
      (findFirst_tryFieldAt_pattern h).2
  · intro text sectionName fields out hok kv r hmem hk hv
    exact fieldPatternRx_literal (regexLiteralChars_noDot hk) (regexLiteralChars_noDot hv)
      (getSectionFieldsRanges_ok_mem hok kv r hmem).2.2

/-- C5 witness: the amended theorem applied at a concrete document: the
fully literal `name` field match at `[0, 12)` of `name = "Foo"` covers an
exact pattern occurrence. -/
theorem located_spans_cover_exact_occurrence_witness :
    FieldPattern (strL "name") (strL "Foo") (sliceText (strL "name = \"Foo\"\n") 0 (0 + 12)) :=
  located_spans_cover_exact_occurrence.2.2.1 (strL "name = \"Foo\"\n") (strL "name")
    (strL "Foo") 0 12 (by decide) (by decide) (by decide)

/-- C6: with a dependency-entry range containing the queried position, the
`sectionHover` dispatch returns the static query-registries hint while
neither loading nor ready, the static `loading...` hover while loading, and
in the ready state issues exactly one `lens/pkgVersions` request on this
access (no cache: the request list of every such call is the one fresh
request) and returns the fetched metadata hover. -/
theorem sectionHover_state_dependent_results
    (depsRanges : List ((List Char × List Char) × Range)) (position : Nat)
    (fetch : PkgVersionsParams → Except JsError PkgVersionsResponse)
    (key : ProjectTomlSection) (dep : List Char × List Char) (r : Range)
    (resp : PkgVersionsResponse)
    (hfind : firstContaining depsRanges position = some (dep, r))
    (hfetch : fetch ⟨dep.1, dep.2⟩ = .ok resp) :
    sectionHover key false false fetch depsRanges position =
      .ok (some ⟨Tooltips.queryRegistriesHint, r⟩, [])
    ∧ sectionHover key true false fetch depsRanges position =
      .ok (some ⟨"loading...", r⟩, [])
    ∧ sectionHover key false true fetch depsRanges position =
      .ok (some ⟨Tooltips.DependencyHover ⟨dep.1⟩ resp.latest_version resp.url
                   resp.registry, r⟩, [⟨dep.1, dep.2⟩]) := by
  refine ⟨?_, ?_, ?_⟩ <;> simp [sectionHover, hfind, hfetch]

/-- C6 witness: the state-dependent hover results at a concrete range list,
position and service response. -/
theorem sectionHover_state_dependent_results_witness :
    sectionHover ProjectTomlSection.deps false false
        (fun _ => .ok ⟨"2.0.0", "http://x", "General"⟩)
        [((strL "Bar", strL "xyz"), ⟨33, 44⟩)] 35 =
      .ok (some ⟨Tooltips.queryRegistriesHint, ⟨33, 44⟩⟩, [])
    ∧ sectionHover ProjectTomlSection.deps true false
        (fun _ => .ok ⟨"2.0.0", "http://x", "General"⟩)
        [((strL "Bar", strL "xyz"), ⟨33, 44⟩)] 35 =
      .ok (some ⟨"loading...", ⟨33, 44⟩⟩, [])
    ∧ sectionHover ProjectTomlSection.deps false true
        (fun _ => .ok ⟨"2.0.0", "http://x", "General"⟩)
        [((strL "Bar", strL "xyz"), ⟨33, 44⟩)] 35 =
      .ok (some ⟨Tooltips.DependencyHover ⟨strL "Bar"⟩ "2.0.0" "http://x" "General", ⟨33, 44⟩⟩,
           [⟨strL "Bar", strL "xyz"⟩]) :=
  sectionHover_state_dependent_results [((strL "Bar", strL "xyz"), ⟨33, 44⟩)] 35
    (fun _ => .ok ⟨"2.0.0", "http://x", "General"⟩) ProjectTomlSection.deps
    (strL "Bar", strL "xyz") ⟨33, 44⟩ ⟨"2.0.0", "http://x", "General"⟩ (by decide) rfl

/-- C7 counterexample: the claim says containment is exclusive of the span's
end offset, but `vscode.Range.contains` is inclusive of the end: for the
document `uuid = "u"` the uuid span is `[0, 10]` and a hover query exactly
at offset `10` (the span's end) still returns the descriptor. -/
theorem fieldHover_contains_at_end :
    getFieldRange (strL "uuid = \"u\"") (strL "uuid") (strL "u") = ⟨0, 10⟩
    ∧ (fieldHover ProjectTomlKey.uuid ⟨0, 10⟩ 10).isSome = true := by decide

/-- C7 (amended): position containment in a candidate span is inclusive of
both the start and the end offset (`vscode.Range.contains`); `fieldHover`
returns a descriptor exactly when the range contains the position; on the
scenario manifest a position in the gap between the deps entries and the
`[compat]` header yields no descriptor, and a position strictly inside the
located uuid span yields the uuid descriptor. -/
theorem containment_inclusive_both_ends :
    (∀ (r : Range) (p : Nat), containsPos r p = true ↔ (r.start ≤ p ∧ p ≤ r.stop))
    ∧ (∀ (key : ProjectTomlKey) (r : Range) (p : Nat),
        (fieldHover key r p).isSome = containsPos r p)
    ∧ provideFieldsAndHeadersHover
        (strL "name = \"Foo\"\nuuid = \"abc\"\n[deps]\nBar = \"xyz\"\n[compat]\n") 44 =
        .ok none
    ∧ provideFieldsAndHeadersHover
        (strL "name = \"Foo\"\nuuid = \"abc\"\n[deps]\nBar = \"xyz\"\n[compat]\n") 14 =
        .ok (some ⟨Tooltips.uuid, ⟨13, 25⟩⟩) := by
  refine ⟨?_, ?_, by decide, by decide⟩
  · intro r p
    simp [containsPos]
  · intro key r p
    unfold fieldHover
    by_cases h : containsPos r p = true
    · rw [if_pos h, h]
      rfl
    · rw [if_neg h]
      simp only [Bool.not_eq_true] at h
      rw [h]
      rfl

/-- C8: the request type's method name is `lens/pkgVersions`; in the ready
state a hover for the entry `Bar = "xyz"` sends the parameters
`{name: "Bar", uuid: "xyz"}`, and a response
`{latest_version: "2.0.0", url: "http://x", registry: "General"}` produces
a descriptor whose markdown contains all three response values verbatim. -/
theorem pkgVersions_request_and_verbatim_descriptor :
    requestTypeLens = "lens/pkgVersions"
    ∧ sectionHover ProjectTomlSection.deps false true
        (fun _ => .ok ⟨"2.0.0", "http://x", "General"⟩)
        [((strL "Bar", strL "xyz"), ⟨0, 11⟩)] 3 =
      .ok (some ⟨Tooltips.DependencyHover "Bar" "2.0.0" "http://x" "General", ⟨0, 11⟩⟩,
           [⟨strL "Bar", strL "xyz"⟩])
    ∧ containsSub (strL (Tooltips.DependencyHover "Bar" "2.0.0" "http://x" "General"))
        (strL "2.0.0") = true
    ∧ containsSub (strL (Tooltips.DependencyHover "Bar" "2.0.0" "http://x" "General"))
        (strL "http://x") = true
    ∧ containsSub (strL (Tooltips.DependencyHover "Bar" "2.0.0" "http://x" "General"))
        (strL "General") = true :=
  ⟨by decide, by decide, by decide, by decide, by decide⟩

/-- C9: the registry readiness state is monotonic — every scheduler step of
the (two-trigger) `queryRegistries` system only moves the readiness rank
(`Uninitialized` = 0, `Loading` = 1, `Ready` = 2) upwards, along whole runs
included — and a metadata query (`sectionHover`), whether the RPC succeeds
or fails, returns the global state untouched: the code writes none of the
readiness flags. -/
theorem readiness_monotone_and_rpc_preserves_state :
    (∀ (s : Sys) (b : Bool), SysInv s →
        rank s ≤ rank (schedStep s b) ∧ SysInv (schedStep s b))
    ∧ (∀ (sched : List Bool) (b : Bool),
        rank (runSched sched) ≤ rank (runSched (sched ++ [b])))
    ∧ (∀ (s : Sys) (key : ProjectTomlSection)
          (fetch : PkgVersionsParams → Except JsError PkgVersionsResponse)
          (depsRanges : List ((List Char × List Char) × Range)) (position : Nat),
        (hoverStep s key fetch depsRanges position).1 = s) := by
  refine ⟨schedStep_mono_inv, ?_, ?_⟩
  · intro sched b
    have hrun : runSched (sched ++ [b]) = schedStep (runSched sched) b := by
      unfold runSched
      rw [List.foldl_append]
      rfl
    rw [hrun]
    exact (schedStep_mono_inv (runSched sched) b (sysInv_runSched sched)).1
  · intro s key fetch depsRanges position
    rfl

/-- C9 witness: the step lemma applied at the initial state and a first
scheduler step. -/
theorem readiness_monotone_and_rpc_preserves_state_witness :
    rank initSys ≤ rank (schedStep initSys true) ∧ SysInv (schedStep initSys true) :=
  readiness_monotone_and_rpc_preserves_state.1 initSys true (by decide)

/-- C10: when a top-level field's exact text cannot be located (here the
parsed uuid `a<TAB>b` from the escaped rendering `"a\tb"` never appears
verbatim), `getFieldRange` returns the empty range anchored at offset `0`
(clamped from `positionAt(-1)`), and consequently a hover query at the very
start of the document returns the missing field's descriptor. -/
theorem missing_field_empty_range_hover_at_zero :
    positionAtI (strL "name = \"Foo\"\nuuid = \"a\\tb\"\n") (-1) = 0
    ∧ findFirst (tryFieldAt (strL "uuid") ['a', '\t', 'b'])
        (strL "name = \"Foo\"\nuuid = \"a\\tb\"\n") = none
    ∧ getProjectTomlFields (strL "name = \"Foo\"\nuuid = \"a\\tb\"\n") =
        .ok ⟨some (strL "Foo"), some ['a', '\t', 'b'], none, none, none, none, none⟩
    ∧ getFieldRange (strL "name = \"Foo\"\nuuid = \"a\\tb\"\n") (strL "uuid")
        ['a', '\t', 'b'] = ⟨0, 0⟩
    ∧ provideFieldsAndHeadersHover (strL "name = \"Foo\"\nuuid = \"a\\tb\"\n") 0 =
        .ok (some ⟨Tooltips.uuid, ⟨0, 0⟩⟩) :=
  ⟨by decide, by decide, by decide, by decide, by decide⟩
